import Mathlib

/-!
Verification of the RDR (Ripple-Down Rules) engine.

Shallow embedding of `src/rdr_engine.py` (file-path cornerstone variant),
`src/app/rdr_engine.py` (summary/merge variant) and the response handling of
`src/llm_api.py`.  Python objects `Node`/`Vertex`/`Rule` with optional child
references become a purely functional binary tree `Tree α`, generic over the
cornerstone payload `α` (the root variant stores `List String` of file paths,
the app variant one summary `String`).  `None` for a missing node or child is
the `Tree.nil` constructor.  Python object identity — the tree is a rooted
single-owner binary tree, so every live node is reached by exactly one path
from the root — is modelled by the node's root path (`Path`).  LLM calls are
modelled as explicit function parameters; a call that may raise an exception
is a function into `Option`.
-/

namespace RDR

/-- Embeds class `Rule` of rdr_engine.py: `conditions` is a string holding a
JSON array, `conclusions` a free-text string. -/
structure Rule where
  conditions : String
  conclusions : String
deriving DecidableEq, Repr

/-- Embeds `Optional[Node]` together with `Vertex`: a tree is either the
absent node (`None` in Python) or a node owning a rule, a cornerstone payload
(`Vertex.data` resp. `Vertex.summary`) and two optional children. -/
inductive Tree (α : Type) where
  | nil : Tree α
  | node (rule : Rule) (profile : α) (left : Tree α) (right : Tree α) : Tree α
deriving DecidableEq, Repr

/-- Direction of one child step: `left` (alternative) or `right` (exception). -/
inductive Dir where
  | L : Dir
  | R : Dir
deriving DecidableEq, Repr

/-- Identity of a node in a single-owner tree: its path from the root. -/
abbrev Path := List Dir

/-- Follows a path down the tree, returning the subtree it denotes. -/
def subtreeAt {α : Type} : Tree α → Path → Option (Tree α)
  | t, [] => some t
  | Tree.nil, _ :: _ => none
  | Tree.node _ _ l _, Dir.L :: ps => subtreeAt l ps
  | Tree.node _ _ _ r, Dir.R :: ps => subtreeAt r ps

/-- Number of nodes of the tree. -/
def size {α : Type} : Tree α → Nat
  | Tree.nil => 0
  | Tree.node _ _ l r => size l + size r + 1

/-- Proposition: the path denotes an actual node (not `nil`, not dangling). -/
def isNodeAt {α : Type} (t : Tree α) (p : Path) : Prop :=
  ∃ r pr l rt, subtreeAt t p = some (Tree.node r pr l rt)

/-- Rule stored at a path, if it denotes a node. -/
def ruleAt {α : Type} (t : Tree α) (p : Path) : Option Rule :=
  match subtreeAt t p with
  | some (Tree.node r _ _ _) => some r
  | _ => none

/-- Cornerstone payload stored at a path, if it denotes a node. -/
def profileAt {α : Type} (t : Tree α) (p : Path) : Option α :=
  match subtreeAt t p with
  | some (Tree.node _ pr _ _) => some pr
  | _ => none

/-- Pure structure of the tree: rules and profiles erased. -/
def shape {α : Type} : Tree α → Tree Unit
  | Tree.nil => Tree.nil
  | Tree.node _ _ l r => Tree.node ⟨"", ""⟩ () (shape l) (shape r)

/-! ### The interpret traversal (`RDREngine.interpret`, rdr_engine.py 48-73)

The Python loop keeps three references: `current_node`, `last_tried_node`
(lastVisited) and `last_true_node` (lastMatched).  `interpretGo` is its direct
structural translation: the current node is the subtree being recursed on,
`cur` its root path, and the two accumulators carry the paths of the last
tried and last true nodes.  `check` embeds `llm_check_condition`, taking the
transcript path and the condition string of the current rule. -/

/-- Loop body of `RDREngine.interpret`: descend right on a true evaluation
(also recording lastMatched), left on a false one; stop at an absent node. -/
def interpretGo {α : Type} (ev : String → Bool) :
    Tree α → Path → Option Path → Option Path → Option Path × Option Path
  | Tree.nil, _, lv, lm => (lv, lm)
  | Tree.node r _ l rt, cur, _, lm =>
      if ev r.conditions then
        interpretGo ev rt (cur ++ [Dir.R]) (some cur) (some cur)
      else
        interpretGo ev l (cur ++ [Dir.L]) (some cur) lm

/-- Embeds `RDREngine.interpret(transcript_json_path)`: starts at the root
with both accumulators `None` and returns `(last_tried_node, last_true_node)`
as root paths.  `check tpath cond` stands for
`llm_check_condition(transcript_json_path, condition)`. -/
def interpret {α : Type} (check : String → String → Bool) (t : Tree α)
    (tpath : String) : Option Path × Option Path :=
  interpretGo (check tpath) t [] none none

/-! ### Python string primitives

The engine's input handling uses `str.strip`, `str.lower`, `str.upper`,
`str.replace(".", "")`, `str.split(',')` and `int(...)`.  They are embedded
as structural recursions over the character list of the string (so that every
definition evaluates by kernel reduction on concrete inputs). -/

/-- ASCII whitespace as stripped by Python `str.strip()`. -/
def isSpaceChar (c : Char) : Bool :=
  c = ' ' || c = '\t' || c = '\n' || c = '\r' || c = '\x0b' || c = '\x0c'

/-- Drops leading whitespace characters. -/
def dropSpace : List Char → List Char
  | [] => []
  | c :: cs => if isSpaceChar c then dropSpace cs else c :: cs

/-- Embeds Python `s.strip()`. -/
def pyStrip (s : String) : String :=
  ⟨(dropSpace (dropSpace s.data.reverse).reverse)⟩

/-- Lowercases one ASCII letter. -/
def lowerChar (c : Char) : Char :=
  if 'A' ≤ c && c ≤ 'Z' then Char.ofNat (c.toNat + 32) else c

/-- Uppercases one ASCII letter. -/
def upperChar (c : Char) : Char :=
  if 'a' ≤ c && c ≤ 'z' then Char.ofNat (c.toNat - 32) else c

/-- Embeds Python `s.lower()` (ASCII range; the inputs are console text). -/
def pyLower (s : String) : String := ⟨s.data.map lowerChar⟩

/-- Embeds Python `s.upper()` (ASCII range). -/
def pyUpper (s : String) : String := ⟨s.data.map upperChar⟩

/-- Embeds Python `s.replace(".", "")`: removes every dot. -/
def pyRemoveDots (s : String) : String := ⟨s.data.filter (fun c => c ≠ '.')⟩

/-- Splits a character list at every occurrence of `sep`. -/
def splitChars (sep : Char) : List Char → List (List Char)
  | [] => [[]]
  | c :: cs =>
      let rest := splitChars sep cs
      if c = sep then [] :: rest
      else
        match rest with
        | [] => [[c]]
        | piece :: more => (c :: piece) :: more

/-- Embeds Python `s.split(',')`. -/
def pySplit (sep : Char) (s : String) : List String :=
  (splitChars sep s.data).map (fun cs => ⟨cs⟩)

/-- Parses a digit run into a number, `none` on a non-digit or empty run. -/
def digitsToNat : List Char → Option Nat → Option Nat
  | [], acc => acc
  | c :: cs, acc =>
      if c.isDigit then
        digitsToNat cs (some ((acc.getD 0) * 10 + (c.toNat - 48)))
      else none

/-- Embeds Python `int(s)` on an already-stripped string: optional sign
followed by at least one digit (digit-group underscores are not used by the
engine's inputs and are not modelled). `None` models the `ValueError`. -/
def pyInt (s : String) : Option Int :=
  match s.data with
  | '-' :: cs => (digitsToNat cs none).map (fun n => -(n : Int))
  | '+' :: cs => (digitsToNat cs none).map (fun n => (n : Int))
  | cs => (digitsToNat cs none).map (fun n => (n : Int))

/-- Joins string pieces with a separator. -/
def joinWith (sep : String) : List String → String
  | [] => ""
  | [s] => s
  | s :: rest => s ++ sep ++ joinWith sep rest

/-! ### Oracle boundary (`llm_check_condition`, llm_api.py 53-87)

The external effects of `llm_check_condition` — reading and re-serialising
the transcript JSON, formatting the prompt template, and the Gemini API call
— are modelled by an environment of function parameters; an effect that can
raise a Python exception is a function into `Option`, `none` standing for the
raised exception (caught by the `except` clauses). -/

/-- Effectful collaborators of `llm_check_condition`: `readTranscript` is the
`json.load`/`json.dumps` block (exception ⇒ `none`), `fmt` the
`CHECK_PROMPT_TEMPLATE.format` call, `generate` the
`model.generate_content` call returning `response.text` (exception ⇒ `none`). -/
structure CheckEnv where
  readTranscript : String → Option String
  fmt : String → String → String
  generate : String → Option String

/-- Embeds `response.text.strip().upper().replace(".", "")`. -/
def pyNormalize (s : String) : String :=
  pyRemoveDots (pyUpper (pyStrip s))

/-- Embeds the response branching of `llm_check_condition` (llm_api.py
75-84): answer `TRUE` (after normalising) gives `True`, `FALSE` gives
`False`, and any other answer is a warned non-boolean that also gives
`False`. -/
def answerToBool (text : String) : Bool :=
  let t := pyNormalize text
  if t = "TRUE" then true
  else if t = "FALSE" then false
  else false

/-- Embeds the API-call block of `llm_check_condition` (llm_api.py 73-87): a
raised `generate_content` call is caught and returns `False`. -/
def checkCall (env : CheckEnv) (content cond : String) : Bool :=
  match env.generate (env.fmt content cond) with
  | none => false
  | some text => answerToBool text

/-- Embeds `llm_check_condition(transcript_json_path, condition_string)`
(llm_api.py 53-87): file-read failure returns `False`, otherwise the API call
block decides. -/
def llm_check_condition (env : CheckEnv) (tpath cond : String) : Bool :=
  match env.readTranscript tpath with
  | none => false
  | some content => checkCall env content cond

/-! ### Spec-side description of interpret (refinement check)

`interpretLoop` transcribes the traversal exactly as §4.1 of the spec words
it: a cursor that starts at the root, looked up in the unchanged tree at each
step; evaluate the current rule, record lastVisited, on true record
lastMatched and move the cursor to the right child, on false to the left
child; stop when the chosen child is absent.  The loop is fuel-indexed; fuel
`size t + 1` always suffices (proved below). -/

/-- Cursor pointing at the tree `s` hanging at path `p`: absent when `s` is
the absent node. -/
def cursorAt {α : Type} (p : Path) : Tree α → Option Path
  | Tree.nil => none
  | Tree.node _ _ _ _ => some p

/-- One-step-at-a-time cursor loop following the spec's wording of §4.1. -/
def interpretLoop {α : Type} (ev : String → Bool) (t : Tree α) :
    Nat → Option Path → Option Path → Option Path → Option Path × Option Path
  | 0, _, lv, lm => (lv, lm)
  | _ + 1, none, lv, lm => (lv, lm)
  | fuel + 1, some p, lv, lm =>
      match subtreeAt t p with
      | some (Tree.node r _ l rt) =>
          if ev r.conditions then
            interpretLoop ev t fuel (cursorAt (p ++ [Dir.R]) rt) (some p) (some p)
          else
            interpretLoop ev t fuel (cursorAt (p ++ [Dir.L]) l) (some p) lm
      | _ => (lv, lm)

/-- Written from the spec §4.1: if the tree is empty return
`(absent, absent)`, otherwise run the cursor loop from the root. -/
def interpretSpec {α : Type} (check : String → String → Bool) (t : Tree α)
    (tpath : String) : Option Path × Option Path :=
  interpretLoop (check tpath) t (size t + 1) (cursorAt [] t) none none

/-! ### Clinician condition selection (rdr_engine.py 127-192)

The two interactive `while True` loops of the disagree path are embedded as
recursions over the script of strings the clinician types, one `input()` per
element.  A script that ends before the loop reaches its `break` leaves the
program still waiting at the prompt — no result, modelled as `none`. -/

/-- Embeds `int(i.strip()) - 1 for i in choice_str.split(',')`: every piece
must parse as an integer or the whole entry is abandoned (`ValueError`). -/
def parseChoice (s : String) : Option (List Int) :=
  ((pySplit ',' s).mapM (fun piece : String => pyInt (pyStrip piece))).map
    (fun ns => ns.map (fun n => n - 1))

/-- Embeds the two `for` loops over `chosen_indices`/`temp_add_list`: keep
the in-range indices in order, then append each picked condition not already
selected. -/
def addChosen (conds : List String) (idxs : List Int) (selected : List String) :
    List String :=
  let temp := idxs.filterMap (fun idx =>
    if 0 ≤ idx ∧ idx < (conds.length : Int) then conds[idx.toNat]? else none)
  temp.foldl (fun sel c => if c ∈ sel then sel else sel ++ [c]) selected

/-- Embeds the manual-entry loop (rdr_engine.py 131-143), used when the LLM
returned no candidates: empty input finishes only once at least one condition
was added; duplicates are ignored. -/
def manualLoop : List String → List String → Option (List String)
  | [], _ => none
  | raw :: rest, selected =>
      let cond := pyStrip raw
      if cond = "" then
        if selected = [] then manualLoop rest selected
        else some selected
      else if cond ∈ selected then manualLoop rest selected
      else manualLoop rest (selected ++ [cond])

/-- Embeds the constrained selection loop (rdr_engine.py 150-190): `d`
finishes only with a non-empty selection, `m` reads one manual condition from
the next input, anything else is parsed as comma-separated numbers. -/
def selectLoop (conds : List String) : List String → List String → Option (List String)
  | [], _ => none
  | raw :: rest, selected =>
      let choice := pyLower (pyStrip raw)
      if choice = "d" then
        if selected = [] then selectLoop conds rest selected
        else some selected
      else if choice = "m" then
        match rest with
        | [] => none
        | mraw :: rest2 =>
            let m := pyStrip mraw
            if m = "" then selectLoop conds rest2 selected
            else if m ∈ selected then selectLoop conds rest2 selected
            else selectLoop conds rest2 (selected ++ [m])
      else if choice = "" then
        selectLoop conds rest selected
      else
        match parseChoice choice with
        | none => selectLoop conds rest selected
        | some idxs => selectLoop conds rest (addChosen conds idxs selected)

/-- Selection step of the disagree path: manual loop when the LLM candidate
list is empty (rdr_engine.py 129), constrained loop otherwise. -/
def selectConditions (conditionsList script : List String) : Option (List String) :=
  if conditionsList = [] then manualLoop script []
  else selectLoop conditionsList script []

/-! ### New-node construction and placement (rdr_engine.py 196-218) -/

/-- Escapes a string for a JSON literal (backslash and quote; control
characters do not occur in the inputs considered here). -/
def jsonEscape (s : String) : String :=
  ⟨s.data.foldl (fun acc c =>
    if c = '\\' then acc ++ ['\\', '\\']
    else if c = '"' then acc ++ ['\\', '"'] else acc ++ [c]) []⟩

/-- Embeds `json.dumps(selected_conditions, indent=2)`. -/
def jsonDumps (l : List String) : String :=
  match l with
  | [] => "[]"
  | _ =>
      "[\n  " ++
        joinWith ",\n  " (l.map (fun s => "\"" ++ jsonEscape s ++ "\"")) ++
      "\n]"

/-- Replaces the subtree hanging at child `d` of the node at path `v` by
`nw` — the translation of the assignment `n1.right = new_node` resp.
`n1.left = new_node`.  It is a plain overwrite: whatever subtree occupied the
slot is discarded.  A dangling path leaves the tree unchanged (cannot occur
through the engine's own flow). -/
def attachAt {α : Type} : Tree α → Path → Dir → Tree α → Tree α
  | Tree.nil, _, _, _ => Tree.nil
  | Tree.node r pr _ rt, [], Dir.L, nw => Tree.node r pr nw rt
  | Tree.node r pr l _, [], Dir.R, nw => Tree.node r pr l nw
  | Tree.node r pr l rt, Dir.L :: ps, d, nw => Tree.node r pr (attachAt l ps d nw) rt
  | Tree.node r pr l rt, Dir.R :: ps, d, nw => Tree.node r pr l (attachAt rt ps d nw)

/-- Embeds step 7 of `revise` (rdr_engine.py 209-218): empty tree ⇒ the new
node becomes the root; else `n1 == n2` (Python identity, here path equality)
⇒ attach as right (exception) child of `n1`, else as left (alternative)
child.  When the tree is non-empty but `n1` is `None`, both branches would
dereference `None` (`n1.right` / `n1.left`) and raise — modelled as `none`;
the traversal never produces that state. -/
def addNewNode {α : Type} (t : Tree α) (n1 n2 : Option Path) (nw : Tree α) :
    Option (Tree α) :=
  match t with
  | Tree.nil => some nw
  | Tree.node _ _ _ _ =>
      match n1 with
      | none => none
      | some v =>
          if n2 = some v then some (attachAt t v Dir.R nw)
          else some (attachAt t v Dir.L nw)

/-- Embeds the disagree path of `RDREngine.revise` (rdr_engine.py 108-218)
after the clinician answered `n`: run the triggering classification, obtain
the corrected conclusion `concl` (read by `input()`, *not validated*), take
the LLM candidate list `conditionsList` (result of
`llm_get_differentiating_conditions`), run the selection interaction on
`script`, serialise the conditions, build the new node with this transcript
path as its only cornerstone datum, and place it with `addNewNode`.  `none`
means the interaction never completed (or the unreachable dangling state): no
node was created and the tree is unchanged. -/
def reviseDisagree (check : String → String → Bool) (t : Tree (List String))
    (tpath concl : String) (conditionsList script : List String) :
    Option (Tree (List String)) :=
  let n12 := interpret check t tpath
  match selectConditions conditionsList script with
  | none => none
  | some selected =>
      let newNode : Tree (List String) :=
        Tree.node ⟨jsonDumps selected, concl⟩ [tpath] Tree.nil Tree.nil
      addNewNode t n12.1 n12.2 newNode

/-! ### Agree paths -/

/-- Applies `f` to the cornerstone payload of the node at path `v`, leaving
rules, structure and every other node untouched. -/
def updateProfileAt {α : Type} : Tree α → Path → (α → α) → Tree α
  | Tree.nil, _, _ => Tree.nil
  | Tree.node r pr l rt, [], f => Tree.node r (f pr) l rt
  | Tree.node r pr l rt, Dir.L :: ps, f => Tree.node r pr (updateProfileAt l ps f) rt
  | Tree.node r pr l rt, Dir.R :: ps, f => Tree.node r pr l (updateProfileAt rt ps f)

/-- Embeds the agree path of the root variant (rdr_engine.py 98-106): when
`n2` is present and the clinician consents, append the transcript path to
that node's cornerstone data list; otherwise nothing happens. -/
def agreeAppend (t : Tree (List String)) (n2 : Option Path) (tpath : String)
    (consent : Bool) : Tree (List String) :=
  match n2 with
  | none => t
  | some v => if consent then updateProfileAt t v (fun d => d ++ [tpath]) else t

/-- Embeds the agree path of the app variant (src/app/rdr_engine.py 106-114),
the Profile Manager's `acceptCase`: absent node ⇒ no-op; otherwise the node's
summary becomes `llm_merge_summaries(old, new)` — `merge` stands for that
oracle call. -/
def acceptCase (merge : String → String → String) (t : Tree String)
    (n2 : Option Path) (caseSummary : String) : Tree String :=
  match n2 with
  | none => t
  | some v => updateProfileAt t v (fun old => merge old caseSummary)

/-! ### Operation sequences (for the growth invariant) -/

/-- One engine operation on the root-variant tree: a bare classification, an
agree-path call, or a disagree-path revision with its clinician inputs. -/
inductive Op where
  | classify (tpath : String) : Op
  | agree (tpath : String) (consent : Bool) : Op
  | disagree (tpath concl : String) (conditionsList script : List String) : Op

/-- Applies one operation to the tree.  `classify` is `interpret`, which
never mutates; `agree` runs the agree path on the classification's
lastMatched; `disagree` runs `reviseDisagree`, keeping the tree whenever the
interaction did not complete (no mutation has happened by then). -/
def applyOp (check : String → String → Bool) (t : Tree (List String)) :
    Op → Tree (List String)
  | Op.classify _ => t
  | Op.agree tpath consent => agreeAppend t (interpret check t tpath).2 tpath consent
  | Op.disagree tpath concl cl script =>
      match reviseDisagree check t tpath concl cl script with
      | none => t
      | some t2 => t2

/-- Runs a sequence of operations left to right. -/
def runOps (check : String → String → Bool) (t : Tree (List String))
    (ops : List Op) : Tree (List String) :=
  ops.foldl (applyOp check) t

/-! ## Lemmas about paths and subtrees -/

theorem subtreeAt_nil_cons {α : Type} (d : Dir) (ps : Path) :
    subtreeAt (Tree.nil : Tree α) (d :: ps) = none := by
  cases d <;> rfl

theorem isNodeAt_nil_false {α : Type} (p : Path) :
    ¬ isNodeAt (Tree.nil : Tree α) p := by
  rintro ⟨r, pr, l, rt, h⟩
  cases p with
  | nil => simp [subtreeAt] at h
  | cons d ps => rw [subtreeAt_nil_cons] at h; exact Option.noConfusion h

theorem subtreeAt_child {α : Type} {t : Tree α} {p : Path} {r : Rule} {pr : α}
    {l rt : Tree α} (h : subtreeAt t p = some (Tree.node r pr l rt)) :
    subtreeAt t (p ++ [Dir.L]) = some l ∧ subtreeAt t (p ++ [Dir.R]) = some rt := by
  induction p generalizing t with
  | nil =>
      simp [subtreeAt] at h
      subst h
      exact ⟨by simp [subtreeAt], by simp [subtreeAt]⟩
  | cons d ps ih =>
      cases t with
      | nil => rw [subtreeAt_nil_cons] at h; exact Option.noConfusion h
      | node r0 pr0 l0 rt0 =>
          cases d with
          | L => exact ih h
          | R => exact ih h

theorem subtreeAt_parent {α : Type} {t : Tree α} {v : Path} {d : Dir}
    {s : Tree α} (h : subtreeAt t (v ++ [d]) = some s) :
    ∃ r pr l rt, subtreeAt t v = some (Tree.node r pr l rt) ∧
      ((d = Dir.L ∧ l = s) ∨ (d = Dir.R ∧ rt = s)) := by
  induction v generalizing t with
  | nil =>
      cases t with
      | nil => rw [List.nil_append, subtreeAt_nil_cons] at h; exact Option.noConfusion h
      | node r pr l rt =>
          cases d with
          | L =>
              simp [subtreeAt] at h
              exact ⟨r, pr, l, rt, rfl, Or.inl ⟨rfl, h⟩⟩
          | R =>
              simp [subtreeAt] at h
              exact ⟨r, pr, l, rt, rfl, Or.inr ⟨rfl, h⟩⟩
  | cons d0 ps ih =>
      cases t with
      | nil => rw [List.cons_append, subtreeAt_nil_cons] at h; exact Option.noConfusion h
      | node r pr l rt =>
          cases d0 with
          | L => exact ih h
          | R => exact ih h

/-! ## Lemmas about the interpret traversal -/

theorem interpretGo_some_acc {α : Type} (ev : String → Bool) :
    ∀ (s : Tree α) (p : Path) (w : Path) (lm : Option Path),
      ∃ v m, interpretGo ev s p (some w) lm = (some v, m) := by
  intro s
  induction s with
  | nil => intro p w lm; exact ⟨w, lm, rfl⟩
  | node r pr l rt ihl ihr =>
      intro p w lm
      by_cases hev : ev r.conditions
      · obtain ⟨v, m, hm⟩ := ihr (p ++ [Dir.R]) p (some p)
        exact ⟨v, m, by simpa [interpretGo, hev] using hm⟩
      · obtain ⟨v, m, hm⟩ := ihl (p ++ [Dir.L]) p lm
        exact ⟨v, m, by simpa [interpretGo, hev] using hm⟩

theorem interpret_fst_some {α : Type} (check : String → String → Bool)
    {t : Tree α} (tpath : String) (ht : t ≠ Tree.nil) :
    ∃ v m, interpret check t tpath = (some v, m) := by
  cases t with
  | nil => exact absurd rfl ht
  | node r pr l rt =>
      unfold interpret
      by_cases hev : check tpath r.conditions
      · obtain ⟨v, m, hm⟩ := interpretGo_some_acc (check tpath) rt [Dir.R] [] (some [])
        exact ⟨v, m, by simpa [interpretGo, hev] using hm⟩
      · obtain ⟨v, m, hm⟩ := interpretGo_some_acc (check tpath) l [Dir.L] [] none
        exact ⟨v, m, by simpa [interpretGo, hev] using hm⟩

theorem interpretGo_free_slot {α : Type} (ev : String → Bool) (t : Tree α) :
    ∀ (s : Tree α) (p : Path) (lv lm : Option Path),
      subtreeAt t p = some s →
      (∀ q, lm = some q → q.length < p.length) →
      ((lv = none ∧ lm = none ∧ p = []) ∨
        (∃ w, lv = some w ∧
          ((lm = some w ∧ p = w ++ [Dir.R]) ∨ (lm ≠ some w ∧ p = w ++ [Dir.L])))) →
      ∀ v m, interpretGo ev s p lv lm = (some v, m) →
        ∃ r pr l rt, subtreeAt t v = some (Tree.node r pr l rt) ∧
          ((m = some v ∧ rt = Tree.nil) ∨ (m ≠ some v ∧ l = Tree.nil)) := by
  intro s
  induction s with
  | nil =>
      intro p lv lm hsub _ hinv v m hrun
      simp [interpretGo] at hrun
      obtain ⟨hlv, hlm⟩ := hrun
      subst hlv; subst hlm
      rcases hinv with ⟨hnone, _, _⟩ | ⟨w, hw, hcase⟩
      · exact Option.noConfusion hnone
      · have hwv : w = v := (Option.some.inj hw).symm
        subst hwv
        rcases hcase with ⟨hm, hp⟩ | ⟨hm, hp⟩
        · subst hp
          obtain ⟨r, pr, l, rt, hnode, hd⟩ := subtreeAt_parent hsub
          rcases hd with ⟨hdl, _⟩ | ⟨_, hrt⟩
          · exact absurd hdl (by simp)
          · exact ⟨r, pr, l, rt, hnode, Or.inl ⟨hm, hrt⟩⟩
        · subst hp
          obtain ⟨r, pr, l, rt, hnode, hd⟩ := subtreeAt_parent hsub
          rcases hd with ⟨_, hl⟩ | ⟨hdr, _⟩
          · exact ⟨r, pr, l, rt, hnode, Or.inr ⟨hm, hl⟩⟩
          · exact absurd hdr (by simp)
  | node r0 pr0 l0 rt0 ihl ihr =>
      intro p lv lm hsub hlen _ v m hrun
      by_cases hev : ev r0.conditions
      · rw [show interpretGo ev (Tree.node r0 pr0 l0 rt0) p lv lm
              = interpretGo ev rt0 (p ++ [Dir.R]) (some p) (some p) by
            simp [interpretGo, hev]] at hrun
        refine ihr (p ++ [Dir.R]) (some p) (some p)
          ((subtreeAt_child hsub).2) ?_ ?_ v m hrun
        · intro q hq
          have : q = p := by injection hq.symm
          subst this
          simp
        · exact Or.inr ⟨p, rfl, Or.inl ⟨rfl, rfl⟩⟩
      · rw [show interpretGo ev (Tree.node r0 pr0 l0 rt0) p lv lm
              = interpretGo ev l0 (p ++ [Dir.L]) (some p) lm by
            simp [interpretGo, hev]] at hrun
        refine ihl (p ++ [Dir.L]) (some p) lm
          ((subtreeAt_child hsub).1) ?_ ?_ v m hrun
        · intro q hq
          have := hlen q hq
          simp only [List.length_append, List.length_cons, List.length_nil]
          omega
        · refine Or.inr ⟨p, rfl, Or.inr ⟨?_, rfl⟩⟩
          intro hlm
          have := hlen p hlm
          omega

theorem interpret_free_slot {α : Type} {check : String → String → Bool}
    {t : Tree α} {tpath : String} {v : Path} {m : Option Path}
    (h : interpret check t tpath = (some v, m)) :
    ∃ r pr l rt, subtreeAt t v = some (Tree.node r pr l rt) ∧
      ((m = some v ∧ rt = Tree.nil) ∨ (m ≠ some v ∧ l = Tree.nil)) := by
  refine interpretGo_free_slot (check tpath) t t [] none none
    (by cases t <;> rfl) ?_ ?_ v m h
  · intro q hq; exact Option.noConfusion hq
  · exact Or.inl ⟨rfl, rfl, rfl⟩

/-! ## Lemmas about attachment into a free slot -/

theorem attachAt_size {α : Type} (nw : Tree α) :
    ∀ (v : Path) (t : Tree α) (d : Dir),
      subtreeAt t (v ++ [d]) = some Tree.nil →
      size (attachAt t v d nw) = size t + size nw := by
  intro v
  induction v with
  | nil =>
      intro t d hfree
      cases t with
      | nil => rw [List.nil_append, subtreeAt_nil_cons] at hfree; exact Option.noConfusion hfree
      | node r pr l rt =>
          cases d with
          | L =>
              have hl : l = Tree.nil := by simpa [subtreeAt] using hfree
              subst hl
              simp [attachAt, size]
              omega
          | R =>
              have hr : rt = Tree.nil := by simpa [subtreeAt] using hfree
              subst hr
              simp [attachAt, size]
              omega
  | cons d0 ps ih =>
      intro t d hfree
      cases t with
      | nil => rw [List.cons_append, subtreeAt_nil_cons] at hfree; exact Option.noConfusion hfree
      | node r pr l rt =>
          cases d0 with
          | L =>
              have h2 := ih l d (by simpa [subtreeAt] using hfree)
              simp [attachAt, size, h2]
              omega
          | R =>
              have h2 := ih rt d (by simpa [subtreeAt] using hfree)
              simp [attachAt, size, h2]
              omega

theorem attachAt_subtreeAt_new {α : Type} (nw : Tree α) :
    ∀ (v : Path) (t : Tree α) (d : Dir),
      isNodeAt t v →
      subtreeAt (attachAt t v d nw) (v ++ [d]) = some nw := by
  intro v
  induction v with
  | nil =>
      intro t d hnode
      obtain ⟨r, pr, l, rt, hn⟩ := hnode
      have ht : t = Tree.node r pr l rt := by simpa [subtreeAt] using hn
      subst ht
      cases d with
      | L => simp [attachAt, subtreeAt]
      | R => simp [attachAt, subtreeAt]
  | cons d0 ps ih =>
      intro t d hnode
      cases t with
      | nil => exact absurd hnode (isNodeAt_nil_false _)
      | node r pr l rt =>
          cases d0 with
          | L => exact ih l d hnode
          | R => exact ih rt d hnode

theorem attachAt_preserves_isNodeAt {α : Type} (nw : Tree α) :
    ∀ (v : Path) (t : Tree α) (d : Dir) (p : Path),
      subtreeAt t (v ++ [d]) = some Tree.nil →
      isNodeAt t p → isNodeAt (attachAt t v d nw) p := by
  intro v
  induction v with
  | nil =>
      intro t d p hfree hnode
      cases t with
      | nil => rw [List.nil_append, subtreeAt_nil_cons] at hfree; exact Option.noConfusion hfree
      | node r pr l rt =>
          cases d with
          | L =>
              have hl : l = Tree.nil := by simpa [subtreeAt] using hfree
              subst hl
              cases p with
              | nil => exact ⟨r, pr, nw, rt, by simp [attachAt, subtreeAt]⟩
              | cons d1 ps =>
                  cases d1 with
                  | L =>
                      exfalso
                      obtain ⟨r2, pr2, l2, rt2, hn⟩ := hnode
                      cases ps with
                      | nil => simp [subtreeAt] at hn
                      | cons d2 ps2 =>
                          rw [show subtreeAt (Tree.node r pr Tree.nil rt)
                                (Dir.L :: (d2 :: ps2)) = subtreeAt Tree.nil (d2 :: ps2)
                                from rfl, subtreeAt_nil_cons] at hn
                          exact Option.noConfusion hn
                  | R => exact hnode
          | R =>
              have hr : rt = Tree.nil := by simpa [subtreeAt] using hfree
              subst hr
              cases p with
              | nil => exact ⟨r, pr, l, nw, by simp [attachAt, subtreeAt]⟩
              | cons d1 ps =>
                  cases d1 with
                  | R =>
                      exfalso
                      obtain ⟨r2, pr2, l2, rt2, hn⟩ := hnode
                      cases ps with
                      | nil => simp [subtreeAt] at hn
                      | cons d2 ps2 =>
                          rw [show subtreeAt (Tree.node r pr l Tree.nil)
                                (Dir.R :: (d2 :: ps2)) = subtreeAt Tree.nil (d2 :: ps2)
                                from rfl, subtreeAt_nil_cons] at hn
                          exact Option.noConfusion hn
                  | L => exact hnode
  | cons d0 ps ih =>
      intro t d p hfree hnode
      cases t with
      | nil => rw [List.cons_append, subtreeAt_nil_cons] at hfree; exact Option.noConfusion hfree
      | node r pr l rt =>
          cases d0 with
          | L =>
              cases p with
              | nil => exact ⟨r, pr, attachAt l ps d nw, rt, by simp [attachAt, subtreeAt]⟩
              | cons d1 ps1 =>
                  cases d1 with
                  | L => exact ih l d ps1 (by simpa [subtreeAt] using hfree) hnode
                  | R => exact hnode
          | R =>
              cases p with
              | nil => exact ⟨r, pr, l, attachAt rt ps d nw, by simp [attachAt, subtreeAt]⟩
              | cons d1 ps1 =>
                  cases d1 with
                  | L => exact hnode
                  | R => exact ih rt d ps1 (by simpa [subtreeAt] using hfree) hnode

/-! ## Lemmas about profile updates -/

theorem size_shape {α : Type} : ∀ t : Tree α, size (shape t) = size t := by
  intro t
  induction t with
  | nil => rfl
  | node r pr l rt ihl ihr => simp [shape, size, ihl, ihr]

theorem updateProfileAt_shape {α : Type} (f : α → α) :
    ∀ (t : Tree α) (v : Path), shape (updateProfileAt t v f) = shape t := by
  intro t
  induction t with
  | nil => intro v; cases v <;> rfl
  | node r pr l rt ihl ihr =>
      intro v
      cases v with
      | nil => rfl
      | cons d ps => cases d <;> simp [updateProfileAt, shape, ihl, ihr]

theorem updateProfileAt_ruleAt {α : Type} (f : α → α) :
    ∀ (t : Tree α) (v p : Path),
      ruleAt (updateProfileAt t v f) p = ruleAt t p := by
  intro t
  induction t with
  | nil => intro v p; cases v <;> rfl
  | node r pr l rt ihl ihr =>
      intro v p
      cases v with
      | nil =>
          cases p with
          | nil => rfl
          | cons d1 ps1 => cases d1 <;> rfl
      | cons d ps =>
          cases d with
          | L =>
              cases p with
              | nil => rfl
              | cons d1 ps1 =>
                  cases d1 with
                  | L => exact ihl ps ps1
                  | R => rfl
          | R =>
              cases p with
              | nil => rfl
              | cons d1 ps1 =>
                  cases d1 with
                  | L => rfl
                  | R => exact ihr ps ps1

theorem updateProfileAt_profileAt_other {α : Type} (f : α → α) :
    ∀ (t : Tree α) (v p : Path), p ≠ v →
      profileAt (updateProfileAt t v f) p = profileAt t p := by
  intro t
  induction t with
  | nil => intro v p _; cases v <;> rfl
  | node r pr l rt ihl ihr =>
      intro v p hne
      cases v with
      | nil =>
          cases p with
          | nil => exact absurd rfl hne
          | cons d1 ps1 => cases d1 <;> rfl
      | cons d ps =>
          cases d with
          | L =>
              cases p with
              | nil => rfl
              | cons d1 ps1 =>
                  cases d1 with
                  | L => exact ihl ps ps1 (fun he => hne (by rw [he]))
                  | R => rfl
          | R =>
              cases p with
              | nil => rfl
              | cons d1 ps1 =>
                  cases d1 with
                  | L => rfl
                  | R => exact ihr ps ps1 (fun he => hne (by rw [he]))

theorem updateProfileAt_profileAt_self {α : Type} (f : α → α) :
    ∀ (t : Tree α) (v : Path),
      profileAt (updateProfileAt t v f) v = (profileAt t v).map f := by
  intro t
  induction t with
  | nil => intro v; cases v <;> rfl
  | node r pr l rt ihl ihr =>
      intro v
      cases v with
      | nil => rfl
      | cons d ps =>
          cases d with
          | L => exact ihl ps
          | R => exact ihr ps

theorem isNodeAt_of_ruleAt {α : Type} {t : Tree α} {p : Path} {r : Rule}
    (h : ruleAt t p = some r) : isNodeAt t p := by
  unfold ruleAt at h
  cases hs : subtreeAt t p with
  | none => rw [hs] at h; exact Option.noConfusion h
  | some s =>
      cases s with
      | nil => rw [hs] at h; exact Option.noConfusion h
      | node r2 pr2 l2 rt2 => exact ⟨r2, pr2, l2, rt2, hs⟩

theorem ruleAt_of_isNodeAt {α : Type} {t : Tree α} {p : Path}
    (h : isNodeAt t p) : ∃ r, ruleAt t p = some r := by
  obtain ⟨r, pr, l, rt, hs⟩ := h
  exact ⟨r, by simp [ruleAt, hs]⟩

theorem updateProfileAt_size {α : Type} (f : α → α) (t : Tree α) (v : Path) :
    size (updateProfileAt t v f) = size t := by
  have h1 := size_shape (updateProfileAt t v f)
  have h2 := size_shape t
  rw [updateProfileAt_shape] at h1
  omega

theorem updateProfileAt_isNodeAt {α : Type} (f : α → α) (t : Tree α)
    (v p : Path) : isNodeAt (updateProfileAt t v f) p ↔ isNodeAt t p := by
  constructor
  · intro h
    obtain ⟨r, hr⟩ := ruleAt_of_isNodeAt h
    rw [updateProfileAt_ruleAt] at hr
    exact isNodeAt_of_ruleAt hr
  · intro h
    obtain ⟨r, hr⟩ := ruleAt_of_isNodeAt h
    refine isNodeAt_of_ruleAt (r := r) ?_
    rw [updateProfileAt_ruleAt]
    exact hr

/-! ## Characterisation of the disagree path -/

theorem reviseDisagree_eq {check : String → String → Bool}
    {t : Tree (List String)} {tpath concl : String}
    {cl script : List String} {t2 : Tree (List String)}
    (h : reviseDisagree check t tpath concl cl script = some t2) :
    ∃ sel, selectConditions cl script = some sel ∧
      ((t = Tree.nil ∧
          t2 = Tree.node ⟨jsonDumps sel, concl⟩ [tpath] Tree.nil Tree.nil) ∨
        (∃ v m, interpret check t tpath = (some v, m) ∧ isNodeAt t v ∧
          ((m = some v ∧ subtreeAt t (v ++ [Dir.R]) = some Tree.nil ∧
              t2 = attachAt t v Dir.R
                (Tree.node ⟨jsonDumps sel, concl⟩ [tpath] Tree.nil Tree.nil)) ∨
            (m ≠ some v ∧ subtreeAt t (v ++ [Dir.L]) = some Tree.nil ∧
              t2 = attachAt t v Dir.L
                (Tree.node ⟨jsonDumps sel, concl⟩ [tpath] Tree.nil Tree.nil))))) := by
  unfold reviseDisagree at h
  cases hsel : selectConditions cl script with
  | none => rw [hsel] at h; exact Option.noConfusion h
  | some sel =>
      rw [hsel] at h
      refine ⟨sel, rfl, ?_⟩
      cases t with
      | nil =>
          simp [addNewNode] at h
          exact Or.inl ⟨rfl, h.symm⟩
      | node r0 pr0 l0 rt0 =>
          obtain ⟨v, m, hint⟩ :=
            interpret_fst_some check (t := Tree.node r0 pr0 l0 rt0) tpath (by simp)
          rw [hint] at h
          obtain ⟨r, pr, l, rt, hnode, hcases⟩ := interpret_free_slot hint
          refine Or.inr ⟨v, m, hint, ⟨r, pr, l, rt, hnode⟩, ?_⟩
          rcases hcases with ⟨hm, hrt⟩ | ⟨hm, hl⟩
          · subst hm
            simp [addNewNode] at h
            refine Or.inl ⟨rfl, ?_, h.symm⟩
            rw [(subtreeAt_child hnode).2, hrt]
          · simp [addNewNode, hm] at h
            refine Or.inr ⟨hm, ?_, h.symm⟩
            rw [(subtreeAt_child hnode).1, hl]

theorem reviseDisagree_size {check : String → String → Bool}
    {t : Tree (List String)} {tpath concl : String}
    {cl script : List String} {t2 : Tree (List String)}
    (h : reviseDisagree check t tpath concl cl script = some t2) :
    size t2 = size t + 1 := by
  obtain ⟨sel, _, hcases⟩ := reviseDisagree_eq h
  rcases hcases with ⟨hnil, ht2⟩ | ⟨v, m, _, _, hcases⟩
  · subst hnil; subst ht2; rfl
  · rcases hcases with ⟨_, hfree, ht2⟩ | ⟨_, hfree, ht2⟩ <;>
      · subst ht2
        rw [attachAt_size _ v t _ hfree]
        rfl

theorem reviseDisagree_preserves {check : String → String → Bool}
    {t : Tree (List String)} {tpath concl : String}
    {cl script : List String} {t2 : Tree (List String)}
    (h : reviseDisagree check t tpath concl cl script = some t2) :
    ∀ p, isNodeAt t p → isNodeAt t2 p := by
  intro p hp
  obtain ⟨sel, _, hcases⟩ := reviseDisagree_eq h
  rcases hcases with ⟨hnil, _⟩ | ⟨v, m, _, _, hcases⟩
  · subst hnil; exact absurd hp (isNodeAt_nil_false p)
  · rcases hcases with ⟨_, hfree, ht2⟩ | ⟨_, hfree, ht2⟩ <;>
      · subst ht2
        exact attachAt_preserves_isNodeAt _ v t _ p hfree hp

theorem applyOp_size_le (check : String → String → Bool)
    (t : Tree (List String)) (op : Op) : size t ≤ size (applyOp check t op) := by
  cases op with
  | classify tpath => simp [applyOp]
  | agree tpath consent =>
      simp only [applyOp, agreeAppend]
      cases (interpret check t tpath).2 with
      | none => simp
      | some v =>
          by_cases hc : consent
          · simp [hc, updateProfileAt_size]
          · simp [hc]
  | disagree tpath concl cl script =>
      simp only [applyOp]
      cases hrev : reviseDisagree check t tpath concl cl script with
      | none => simp
      | some t2 =>
          simp only []
          rw [reviseDisagree_size hrev]
          omega

theorem applyOp_preserves (check : String → String → Bool)
    (t : Tree (List String)) (op : Op) :
    ∀ p, isNodeAt t p → isNodeAt (applyOp check t op) p := by
  intro p hp
  cases op with
  | classify tpath => simpa [applyOp] using hp
  | agree tpath consent =>
      simp only [applyOp, agreeAppend]
      cases (interpret check t tpath).2 with
      | none => exact hp
      | some v =>
          by_cases hc : consent
          · simp only [hc, if_true]
            exact (updateProfileAt_isNodeAt _ t v p).mpr hp
          · simp only [hc, if_false]
            exact hp
  | disagree tpath concl cl script =>
      simp only [applyOp]
      cases hrev : reviseDisagree check t tpath concl cl script with
      | none => exact hp
      | some t2 => exact reviseDisagree_preserves hrev p hp

theorem runOps_size_le (check : String → String → Bool) :
    ∀ (ops : List Op) (t : Tree (List String)),
      size t ≤ size (runOps check t ops) := by
  intro ops
  induction ops with
  | nil => intro t; exact Nat.le_refl _
  | cons op rest ih =>
      intro t
      calc size t ≤ size (applyOp check t op) := applyOp_size_le check t op
        _ ≤ size (runOps check (applyOp check t op) rest) := ih _
        _ = size (runOps check t (op :: rest)) := rfl

theorem runOps_preserves (check : String → String → Bool) :
    ∀ (ops : List Op) (t : Tree (List String)) (p : Path),
      isNodeAt t p → isNodeAt (runOps check t ops) p := by
  intro ops
  induction ops with
  | nil => intro t p hp; exact hp
  | cons op rest ih =>
      intro t p hp
      exact ih (applyOp check t op) p (applyOp_preserves check t op p hp)

/-! ## The selection interaction cannot finish with an empty set -/

theorem manualLoop_ne_nil :
    ∀ (script selected : List String) (sel : List String),
      manualLoop script selected = some sel → sel ≠ [] := by
  intro script
  induction script with
  | nil => intro selected sel h; exact Option.noConfusion h
  | cons raw rest ih =>
      intro selected sel h
      simp only [manualLoop] at h
      split at h
      · split at h
        · exact ih _ _ h
        · next hne =>
            have hss : selected = sel := Option.some.inj h
            rw [hss] at hne
            exact hne
      · split at h
        · exact ih _ _ h
        · exact ih _ _ h

theorem selectLoop_ne_nil (conds : List String) :
    ∀ (n : Nat) (script selected : List String), script.length ≤ n →
      ∀ sel, selectLoop conds script selected = some sel → sel ≠ [] := by
  intro n
  induction n with
  | zero =>
      intro script selected hlen sel h
      cases script with
      | nil => exact Option.noConfusion h
      | cons raw rest =>
          rw [List.length_cons] at hlen
          omega
  | succ n ih =>
      intro script selected hlen sel h
      cases script with
      | nil => exact Option.noConfusion h
      | cons raw rest =>
          have hrest : rest.length ≤ n := by
            rw [List.length_cons] at hlen; omega
          unfold selectLoop at h
          by_cases hd : pyLower (pyStrip raw) = "d"
          · simp only [hd, if_true, reduceIte] at h
            by_cases h0 : selected = []
            · rw [if_pos h0] at h
              exact ih rest _ hrest sel h
            · rw [if_neg h0] at h
              have hss := Option.some.inj h
              rw [hss] at h0
              exact h0
          · by_cases hm : pyLower (pyStrip raw) = "m"
            · simp only [hd, hm, if_false, if_true, reduceIte] at h
              cases rest with
              | nil => exact Option.noConfusion h
              | cons mraw rest2 =>
                  have hrest2 : rest2.length ≤ n := by
                    rw [List.length_cons] at hrest; omega
                  by_cases hm0 : pyStrip mraw = ""
                  · simp only [hm0, if_true, reduceIte] at h
                    exact ih rest2 _ hrest2 sel h
                  · by_cases hmem : pyStrip mraw ∈ selected
                    · simp only [hm0, hmem, if_false, if_true, reduceIte] at h
                      exact ih rest2 _ hrest2 sel h
                    · simp only [hm0, hmem, if_false, reduceIte] at h
                      exact ih rest2 _ hrest2 sel h
            · by_cases he : pyLower (pyStrip raw) = ""
              · simp only [hd, hm, he, if_false, if_true, reduceIte] at h
                exact ih rest _ hrest sel h
              · simp only [hd, hm, he, if_false, reduceIte] at h
                cases hp : parseChoice (pyLower (pyStrip raw)) with
                | none =>
                    rw [hp] at h
                    exact ih rest _ hrest sel h
                | some idxs =>
                    rw [hp] at h
                    exact ih rest _ hrest sel h

theorem selectConditions_ne_nil {cl script sel : List String}
    (h : selectConditions cl script = some sel) : sel ≠ [] := by
  unfold selectConditions at h
  split at h
  · exact manualLoop_ne_nil script [] sel h
  · exact selectLoop_ne_nil cl script.length script [] (Nat.le_refl _) sel h

/-! ## The cursor loop of the spec computes the same result as interpret -/

theorem interpretLoop_eq_go {α : Type} (ev : String → Bool) (t : Tree α) :
    ∀ (s : Tree α) (p : Path) (lv lm : Option Path) (fuel : Nat),
      subtreeAt t p = some s → size s ≤ fuel →
      interpretLoop ev t fuel (cursorAt p s) lv lm = interpretGo ev s p lv lm := by
  intro s
  induction s with
  | nil =>
      intro p lv lm fuel _ _
      cases fuel <;> rfl
  | node r pr l rt ihl ihr =>
      intro p lv lm fuel hsub hfuel
      cases fuel with
      | zero => simp [size] at hfuel
      | succ f =>
          have hchild := subtreeAt_child hsub
          by_cases hev : ev r.conditions
          · calc interpretLoop ev t (f + 1) (cursorAt p (Tree.node r pr l rt)) lv lm
                = interpretLoop ev t f (cursorAt (p ++ [Dir.R]) rt) (some p) (some p) := by
                  simp [interpretLoop, cursorAt, hsub, hev]
              _ = interpretGo ev rt (p ++ [Dir.R]) (some p) (some p) :=
                  ihr _ _ _ _ hchild.2 (by simp only [size] at hfuel; omega)
              _ = interpretGo ev (Tree.node r pr l rt) p lv lm := by
                  simp [interpretGo, hev]
          · calc interpretLoop ev t (f + 1) (cursorAt p (Tree.node r pr l rt)) lv lm
                = interpretLoop ev t f (cursorAt (p ++ [Dir.L]) l) (some p) lm := by
                  simp [interpretLoop, cursorAt, hsub, hev]
              _ = interpretGo ev l (p ++ [Dir.L]) (some p) lm :=
                  ihl _ _ _ _ hchild.1 (by simp only [size] at hfuel; omega)
              _ = interpretGo ev (Tree.node r pr l rt) p lv lm := by
                  simp [interpretGo, hev]

theorem interpretSpec_eq_interpret {α : Type} (check : String → String → Bool)
    (t : Tree α) (tpath : String) :
    interpretSpec check t tpath = interpret check t tpath := by
  unfold interpretSpec interpret
  exact interpretLoop_eq_go (check tpath) t t [] none none (size t + 1)
    (by cases t <;> rfl) (by omega)

/-! ## Congruence of interpret in the oracle -/

theorem interpret_congr {α : Type} {check1 check2 : String → String → Bool}
    (hch : ∀ a b, check1 a b = check2 a b) (t : Tree α) (tpath : String) :
    interpret check1 t tpath = interpret check2 t tpath := by
  have : check1 = check2 := funext fun a => funext fun b => hch a b
  rw [this]

/-! ## The claims -/

/-- C2: `interpret` behaves exactly as the spec's traversal description: the
cursor loop written from §4.1's wording — start at the root, evaluate the
current rule via the oracle, record lastVisited, on true also record
lastMatched and descend right, on false descend left, stop when the chosen
child is absent — computes the same `(lastVisited, lastMatched)` pair as the
engine's `interpret`, and on the empty tree the result is `(absent, absent)`. -/
theorem claim_C2 {α : Type} (check : String → String → Bool) (t : Tree α)
    (tpath : String) :
    interpretSpec check t tpath = interpret check t tpath ∧
    interpret check (Tree.nil : Tree α) tpath = (none, none) :=
  ⟨interpretSpec_eq_interpret check t tpath, rfl⟩

/-- C9: `interpret` is deterministic given a deterministic oracle: two runs
on an identical tree with an identical transcript, under oracles that give
identical answers, return the identical `(lastVisited, lastMatched)` pair. -/
theorem claim_C9 {α : Type} (check1 check2 : String → String → Bool)
    (t1 t2 : Tree α) (p1 p2 : String)
    (hch : ∀ a b, check1 a b = check2 a b) (ht : t1 = t2) (hp : p1 = p2) :
    interpret check1 t1 p1 = interpret check2 t2 p2 := by
  subst ht
  subst hp
  exact interpret_congr hch t1 p1

/-- C9 witness: two syntactically different but pointwise-equal oracles give
the same result on a concrete one-node tree. -/
theorem claim_C9_witness :
    interpret (fun _ _ => true)
        (Tree.node ⟨"c0", "Flu"⟩ (["k.json"]) Tree.nil Tree.nil) "p.json"
      = interpret (fun _ b => if b = b then true else false)
        (Tree.node ⟨"c0", "Flu"⟩ (["k.json"]) Tree.nil Tree.nil) "p.json" :=
  claim_C9 _ _ _ _ _ _ (fun a b => by simp) rfl rfl

/-- C10: when `interpret` returns a present lastVisited `v`, the child slot
the placement rule would use is free: if lastMatched is the same node (same
path) the right child of `v` is absent, otherwise the left child of `v` is
absent, so an immediately following insertion never overwrites a child. -/
theorem claim_C10 {α : Type} (check : String → String → Bool) (t : Tree α)
    (tpath : String) (v : Path) (m : Option Path)
    (h : interpret check t tpath = (some v, m)) :
    ∃ r pr l rt, subtreeAt t v = some (Tree.node r pr l rt) ∧
      ((m = some v ∧ rt = Tree.nil) ∨ (m ≠ some v ∧ l = Tree.nil)) :=
  interpret_free_slot h

/-- C10 witness: on a one-node tree with a true-answering oracle the
traversal ends at the root having matched it, and the root's right child is
indeed absent. -/
theorem claim_C10_witness :
    ∃ r pr l rt,
      subtreeAt (Tree.node ⟨"c0", "Flu"⟩ (["k.json"]) Tree.nil Tree.nil) [] =
        some (Tree.node r pr l rt) ∧
      ((some ([] : Path) = some ([] : Path) ∧ rt = Tree.nil) ∨
        (some ([] : Path) ≠ some ([] : Path) ∧ l = Tree.nil)) :=
  claim_C10 (fun _ _ => true)
    (Tree.node ⟨"c0", "Flu"⟩ (["k.json"]) Tree.nil Tree.nil) "p.json" [] (some [])
    (by rfl)

/-- C1: every completed disagree-path revision grows the node count by
exactly one and places the new node by the placement invariant computed from
the triggering classification: new root when the tree was empty, right
(exception) child of lastVisited when lastVisited and lastMatched are the
same node by identity, left (alternative) child of lastVisited otherwise. -/
theorem claim_C1 (check : String → String → Bool) (t : Tree (List String))
    (tpath concl : String) (cl script : List String) (t2 : Tree (List String))
    (h : reviseDisagree check t tpath concl cl script = some t2) :
    size t2 = size t + 1 ∧
    ∃ sel, selectConditions cl script = some sel ∧
      ((t = Tree.nil ∧
          t2 = Tree.node ⟨jsonDumps sel, concl⟩ [tpath] Tree.nil Tree.nil) ∨
        (t ≠ Tree.nil ∧ ∃ v m, interpret check t tpath = (some v, m) ∧
          ((m = some v ∧ subtreeAt t2 (v ++ [Dir.R]) =
              some (Tree.node ⟨jsonDumps sel, concl⟩ [tpath] Tree.nil Tree.nil)) ∨
            (m ≠ some v ∧ subtreeAt t2 (v ++ [Dir.L]) =
              some (Tree.node ⟨jsonDumps sel, concl⟩ [tpath] Tree.nil Tree.nil))))) := by
  refine ⟨reviseDisagree_size h, ?_⟩
  obtain ⟨sel, hsel, hcases⟩ := reviseDisagree_eq h
  refine ⟨sel, hsel, ?_⟩
  rcases hcases with ⟨hnil, ht2⟩ | ⟨v, m, hint, hv, hcases⟩
  · exact Or.inl ⟨hnil, ht2⟩
  · have htne : t ≠ Tree.nil := by
      intro he
      rw [he] at hv
      exact isNodeAt_nil_false v hv
    refine Or.inr ⟨htne, v, m, hint, ?_⟩
    rcases hcases with ⟨hm, _, ht2⟩ | ⟨hm, _, ht2⟩
    · subst ht2
      exact Or.inl ⟨hm, attachAt_subtreeAt_new _ v t Dir.R hv⟩
    · subst ht2
      exact Or.inr ⟨hm, attachAt_subtreeAt_new _ v t Dir.L hv⟩

/-- C1 witness: on a one-node tree whose rule evaluates true, the traversal
ends with lastVisited = lastMatched = root, and the revision attaches the new
node as the root's right (exception) child, growing the count from 1 to 2. -/
theorem claim_C1_witness :
    reviseDisagree (fun _ _ => true)
        (Tree.node ⟨"c0", "Flu"⟩ (["old.json"]) Tree.nil Tree.nil)
        "new.json" "Dengue" ["travel"] ["1", "d"]
      = some (Tree.node ⟨"c0", "Flu"⟩ (["old.json"]) Tree.nil
          (Tree.node ⟨jsonDumps ["travel"], "Dengue"⟩ (["new.json"])
            Tree.nil Tree.nil)) ∧
    (size (Tree.node ⟨"c0", "Flu"⟩ (["old.json"]) Tree.nil
          (Tree.node ⟨jsonDumps ["travel"], "Dengue"⟩ (["new.json"])
            Tree.nil Tree.nil))
        = size (Tree.node ⟨"c0", "Flu"⟩ (["old.json"]) Tree.nil Tree.nil) + 1 ∧
      ∃ sel, selectConditions ["travel"] ["1", "d"] = some sel ∧
        ((Tree.node ⟨"c0", "Flu"⟩ (["old.json"]) Tree.nil Tree.nil
            = (Tree.nil : Tree (List String)) ∧
            Tree.node ⟨"c0", "Flu"⟩ (["old.json"]) Tree.nil
              (Tree.node ⟨jsonDumps ["travel"], "Dengue"⟩ (["new.json"])
                Tree.nil Tree.nil)
              = Tree.node ⟨jsonDumps sel, "Dengue"⟩ (["new.json"]) Tree.nil Tree.nil) ∨
          (Tree.node ⟨"c0", "Flu"⟩ (["old.json"]) Tree.nil Tree.nil
              ≠ (Tree.nil : Tree (List String)) ∧
            ∃ v m,
              interpret (fun _ _ => true)
                  (Tree.node ⟨"c0", "Flu"⟩ (["old.json"]) Tree.nil Tree.nil)
                  "new.json" = (some v, m) ∧
              ((m = some v ∧
                  subtreeAt
                    (Tree.node ⟨"c0", "Flu"⟩ (["old.json"]) Tree.nil
                      (Tree.node ⟨jsonDumps ["travel"], "Dengue"⟩ (["new.json"])
                        Tree.nil Tree.nil)) (v ++ [Dir.R]) =
                  some (Tree.node ⟨jsonDumps sel, "Dengue"⟩ (["new.json"])
                    Tree.nil Tree.nil)) ∨
                (m ≠ some v ∧
                  subtreeAt
                    (Tree.node ⟨"c0", "Flu"⟩ (["old.json"]) Tree.nil
                      (Tree.node ⟨jsonDumps ["travel"], "Dengue"⟩ (["new.json"])
                        Tree.nil Tree.nil)) (v ++ [Dir.L]) =
                  some (Tree.node ⟨jsonDumps sel, "Dengue"⟩ (["new.json"])
                    Tree.nil Tree.nil)))))) :=
  ⟨by rfl, claim_C1 _ _ _ _ _ _ _ (by rfl)⟩

/-- C3 counterexample: at a node whose left and right children are both
occupied, the insertion step (rdr_engine.py 209-218) does not fail and does
not leave the tree unchanged: it succeeds and overwrites the right child with
the new node, discarding the subtree that was there. -/
theorem claim_C3_counterexample :
    subtreeAt (Tree.node ⟨"c0", "d0"⟩ (["f0"])
        (Tree.node ⟨"cL", "dL"⟩ (["fL"]) Tree.nil Tree.nil)
        (Tree.node ⟨"cR", "dR"⟩ (["fR"]) Tree.nil Tree.nil)) [Dir.L]
      = some (Tree.node ⟨"cL", "dL"⟩ (["fL"]) Tree.nil Tree.nil) ∧
    subtreeAt (Tree.node ⟨"c0", "d0"⟩ (["f0"])
        (Tree.node ⟨"cL", "dL"⟩ (["fL"]) Tree.nil Tree.nil)
        (Tree.node ⟨"cR", "dR"⟩ (["fR"]) Tree.nil Tree.nil)) [Dir.R]
      = some (Tree.node ⟨"cR", "dR"⟩ (["fR"]) Tree.nil Tree.nil) ∧
    addNewNode (Tree.node ⟨"c0", "d0"⟩ (["f0"])
        (Tree.node ⟨"cL", "dL"⟩ (["fL"]) Tree.nil Tree.nil)
        (Tree.node ⟨"cR", "dR"⟩ (["fR"]) Tree.nil Tree.nil))
        (some []) (some [])
        (Tree.node ⟨"cN", "dN"⟩ (["fN"]) Tree.nil Tree.nil)
      = some (Tree.node ⟨"c0", "d0"⟩ (["f0"])
          (Tree.node ⟨"cL", "dL"⟩ (["fL"]) Tree.nil Tree.nil)
          (Tree.node ⟨"cN", "dN"⟩ (["fN"]) Tree.nil Tree.nil)) ∧
    Tree.node ⟨"c0", "d0"⟩ (["f0"])
        (Tree.node ⟨"cL", "dL"⟩ (["fL"]) Tree.nil Tree.nil)
        (Tree.node ⟨"cN", "dN"⟩ (["fN"]) Tree.nil Tree.nil)
      ≠ Tree.node ⟨"c0", "d0"⟩ (["f0"])
          (Tree.node ⟨"cL", "dL"⟩ (["fL"]) Tree.nil Tree.nil)
          (Tree.node ⟨"cR", "dR"⟩ (["fR"]) Tree.nil Tree.nil) :=
  ⟨rfl, rfl, rfl, by decide⟩

/-- C3 (amended): the insertion step performs no occupancy check at all —
given any present insertion point it succeeds unconditionally and assigns the
new node to the slot selected by the placement rule, overwriting whatever
subtree occupied it; there is no failure path for the both-children-occupied
case.  (In the engine's own single-threaded flow the selected slot is always
free — see the traversal postcondition — so no overwrite occurs in
practice.) -/
theorem claim_C3_amended_thm (t : Tree (List String)) (v : Path)
    (n2 : Option Path) (nw : Tree (List String)) (r : Rule) (pr : List String)
    (l rt : Tree (List String))
    (hv : subtreeAt t v = some (Tree.node r pr l rt)) :
    ∃ t2, addNewNode t (some v) n2 nw = some t2 ∧
      ((n2 = some v ∧ subtreeAt t2 (v ++ [Dir.R]) = some nw) ∨
        (n2 ≠ some v ∧ subtreeAt t2 (v ++ [Dir.L]) = some nw)) := by
  have hnode : isNodeAt t v := ⟨r, pr, l, rt, hv⟩
  cases t with
  | nil => exact absurd hnode (isNodeAt_nil_false v)
  | node r0 pr0 l0 rt0 =>
      by_cases hn : n2 = some v
      · refine ⟨attachAt (Tree.node r0 pr0 l0 rt0) v Dir.R nw, ?_, ?_⟩
        · simp [addNewNode, hn]
        · exact Or.inl ⟨hn, attachAt_subtreeAt_new nw v _ Dir.R hnode⟩
      · refine ⟨attachAt (Tree.node r0 pr0 l0 rt0) v Dir.L nw, ?_, ?_⟩
        · simp [addNewNode, hn]
        · exact Or.inr ⟨hn, attachAt_subtreeAt_new nw v _ Dir.L hnode⟩

/-- C3 witness: concrete instance of the amended statement at a root with
both children occupied: the insertion succeeds and the new node lands in the
right slot. -/
theorem claim_C3_witness :
    ∃ t2, addNewNode (Tree.node ⟨"c0", "d0"⟩ (["f0"])
        (Tree.node ⟨"cL", "dL"⟩ (["fL"]) Tree.nil Tree.nil)
        (Tree.node ⟨"cR", "dR"⟩ (["fR"]) Tree.nil Tree.nil))
        (some []) (some [])
        (Tree.node ⟨"cN", "dN"⟩ (["fN"]) Tree.nil Tree.nil) = some t2 ∧
      ((some ([] : Path) = some ([] : Path) ∧
          subtreeAt t2 ([] ++ [Dir.R]) =
            some (Tree.node ⟨"cN", "dN"⟩ (["fN"]) Tree.nil Tree.nil)) ∨
        (some ([] : Path) ≠ some ([] : Path) ∧
          subtreeAt t2 ([] ++ [Dir.L]) =
            some (Tree.node ⟨"cN", "dN"⟩ (["fN"]) Tree.nil Tree.nil))) :=
  claim_C3_amended_thm _ [] _ _ _ _ _ _ (by rfl)

/-- C4 counterexample: an empty corrected conclusion is not rejected: the
disagree path accepts it and creates a node whose rule carries the empty
conclusion string (here on the empty tree, with the LLM candidate "fever"
selected by the script "1", "d"). -/
theorem claim_C4_counterexample :
    reviseDisagree (fun _ _ => true) Tree.nil "case.json" "" ["fever"]
        ["1", "d"]
      = some (Tree.node ⟨jsonDumps ["fever"], ""⟩ (["case.json"])
          Tree.nil Tree.nil) ∧
    (Rule.mk (jsonDumps ["fever"]) "").conclusions = "" :=
  ⟨by rfl, rfl⟩

/-- C4 (amended): the disagree path does enforce a non-empty final condition
set — the selection interaction cannot complete while the selected set is
empty, so every node the Reviser creates has a non-empty selected condition
list — but the corrected conclusion is not validated: an empty conclusion is
accepted and a node is created carrying it. -/
theorem claim_C4_amended_thm (check : String → String → Bool)
    (t : Tree (List String)) (tpath concl : String) (cl script : List String)
    (t2 : Tree (List String))
    (h : reviseDisagree check t tpath concl cl script = some t2) :
    ∃ sel, selectConditions cl script = some sel ∧ sel ≠ [] := by
  obtain ⟨sel, hsel, _⟩ := reviseDisagree_eq h
  exact ⟨sel, hsel, selectConditions_ne_nil hsel⟩

/-- C4 witness: the concrete revision of the counterexample did go through a
non-empty selected condition set. -/
theorem claim_C4_witness :
    ∃ sel, selectConditions ["fever"] ["1", "d"] = some sel ∧ sel ≠ [] :=
  claim_C4_amended_thm (fun _ _ => true) Tree.nil "case.json" "" ["fever"]
    ["1", "d"]
    (Tree.node ⟨jsonDumps ["fever"], ""⟩ (["case.json"]) Tree.nil Tree.nil)
    (by rfl)

/-- C5: on the agree path with a present lastMatched node, that node's
profile becomes the oracle-merged consolidation `merge oldProfile caseProfile`
and the tree shape is unchanged. -/
theorem claim_C5 (merge : String → String → String) (t : Tree String)
    (v : Path) (cs : String) (r : Rule) (pr : String) (l rt : Tree String)
    (hv : subtreeAt t v = some (Tree.node r pr l rt)) :
    profileAt (acceptCase merge t (some v) cs) v = some (merge pr cs) ∧
    shape (acceptCase merge t (some v) cs) = shape t := by
  constructor
  · show profileAt (updateProfileAt t v _) v = _
    rw [updateProfileAt_profileAt_self]
    simp [profileAt, hv]
  · exact updateProfileAt_shape _ t v

/-- C5 witness: merging a concrete case summary into the root of a one-node
tree replaces its profile by the merge result and keeps the shape. -/
theorem claim_C5_witness :
    profileAt (acceptCase (fun a b => a ++ "; " ++ b)
        (Tree.node ⟨"c0", "Flu"⟩ "old summary" Tree.nil Tree.nil)
        (some []) "new summary") []
      = some ("old summary" ++ "; " ++ "new summary") ∧
    shape (acceptCase (fun a b => a ++ "; " ++ b)
        (Tree.node ⟨"c0", "Flu"⟩ "old summary" Tree.nil Tree.nil)
        (some []) "new summary")
      = shape (Tree.node ⟨"c0", "Flu"⟩ "old summary" Tree.nil Tree.nil) :=
  claim_C5 _ _ [] _ _ _ _ _ (by rfl)

/-- C6: the agree path is a no-op when the node is absent, and for every tree
and case profile it never changes the tree structure, never changes any
node's rule, and changes at most one node's profile — shown for both the
summary-merge variant (acceptCase) and the cornerstone-append variant. -/
theorem claim_C6 (merge : String → String → String) (t : Tree String)
    (n2 : Option Path) (cs : String) (tR : Tree (List String))
    (n2R : Option Path) (tpath : String) (consent : Bool) :
    acceptCase merge t none cs = t ∧
    shape (acceptCase merge t n2 cs) = shape t ∧
    (∀ p, ruleAt (acceptCase merge t n2 cs) p = ruleAt t p) ∧
    (∃ w, ∀ p, p ≠ w → profileAt (acceptCase merge t n2 cs) p = profileAt t p) ∧
    agreeAppend tR none tpath consent = tR ∧
    shape (agreeAppend tR n2R tpath consent) = shape tR ∧
    (∀ p, ruleAt (agreeAppend tR n2R tpath consent) p = ruleAt tR p) ∧
    (∃ w, ∀ p, p ≠ w →
      profileAt (agreeAppend tR n2R tpath consent) p = profileAt tR p) := by
  refine ⟨rfl, ?_, ?_, ?_, rfl, ?_, ?_, ?_⟩
  · cases n2 with
    | none => rfl
    | some v => exact updateProfileAt_shape _ t v
  · cases n2 with
    | none => intro p; rfl
    | some v => intro p; exact updateProfileAt_ruleAt _ t v p
  · cases n2 with
    | none => exact ⟨[], fun p _ => rfl⟩
    | some v => exact ⟨v, fun p hp => updateProfileAt_profileAt_other _ t v p hp⟩
  · cases n2R with
    | none => rfl
    | some v =>
        by_cases hc : consent
        · simp only [agreeAppend, hc, if_true]
          exact updateProfileAt_shape _ tR v
        · simp [agreeAppend, hc]
  · cases n2R with
    | none => intro p; rfl
    | some v =>
        intro p
        by_cases hc : consent
        · simp only [agreeAppend, hc, if_true]
          exact updateProfileAt_ruleAt _ tR v p
        · simp [agreeAppend, hc]
  · cases n2R with
    | none => exact ⟨[], fun p _ => rfl⟩
    | some v =>
        by_cases hc : consent
        · refine ⟨v, fun p hp => ?_⟩
          simp only [agreeAppend, hc, if_true]
          exact updateProfileAt_profileAt_other _ tR v p hp
        · refine ⟨v, fun p hp => ?_⟩
          simp [agreeAppend, hc]

/-- C7 counterexample: a failing oracle call is not surfaced to the caller of
`interpret` as a degraded-result signal: on a concrete one-node tree the run
whose API call raises (generate = none) returns exactly the same
`(lastVisited, lastMatched)` pair as a normal run whose oracle answers
FALSE, so the caller cannot distinguish the degraded result. -/
theorem claim_C7_counterexample :
    llm_check_condition ⟨fun _ => some "content", fun a b => a ++ b,
        fun _ => none⟩ "p.json" "c0" = false ∧
    interpret (llm_check_condition ⟨fun _ => some "content",
          fun a b => a ++ b, fun _ => none⟩)
        (Tree.node ⟨"c0", "Flu"⟩ (["k.json"]) Tree.nil Tree.nil) "p.json"
      = interpret (llm_check_condition ⟨fun _ => some "content",
          fun a b => a ++ b, fun _ => some "FALSE"⟩)
        (Tree.node ⟨"c0", "Flu"⟩ (["k.json"]) Tree.nil Tree.nil) "p.json" :=
  ⟨rfl, by rfl⟩

/-- C7 (amended): every oracle evaluation failure — raised API call or
non-boolean answer — is treated as a false evaluation, so traversal always
terminates and never raises into tree logic; but the failure is only logged,
not reflected in `interpret`'s return value: a run with an always-failing
oracle is indistinguishable from a run whose oracle answers false. -/
theorem claim_C7_amended_thm {α : Type} (env envN : CheckEnv) (t : Tree α)
    (tpath cond content text : String)
    (hgen : ∀ prompt, env.generate prompt = none)
    (hread : envN.readTranscript tpath = some content)
    (hresp : envN.generate (envN.fmt content cond) = some text)
    (hnb : pyNormalize text ≠ "TRUE" ∧ pyNormalize text ≠ "FALSE") :
    llm_check_condition env tpath cond = false ∧
    llm_check_condition envN tpath cond = false ∧
    interpret (llm_check_condition env) t tpath
      = interpret (fun _ _ => false) t tpath := by
  have hfalse : ∀ a b, llm_check_condition env a b = false := by
    intro a b
    unfold llm_check_condition
    cases env.readTranscript a with
    | none => rfl
    | some c =>
        show checkCall env c b = false
        unfold checkCall
        rw [hgen (env.fmt c b)]
  refine ⟨hfalse tpath cond, ?_, ?_⟩
  · unfold llm_check_condition
    rw [hread]
    show checkCall envN content cond = false
    unfold checkCall
    rw [hresp]
    show answerToBool text = false
    unfold answerToBool
    simp only [hnb.1, hnb.2, if_false]
  · exact interpret_congr (fun a b => hfalse a b) t tpath

/-- C7 witness: concrete raising and non-boolean-answering environments both
yield false, and the failing run equals the constant-false run on a concrete
one-node tree. -/
theorem claim_C7_witness :
    llm_check_condition ⟨fun _ => some "content", fun a b => a ++ b,
        fun _ => none⟩ "p.json" "c0" = false ∧
    llm_check_condition ⟨fun _ => some "content", fun a b => a ++ b,
        fun _ => some "maybe."⟩ "p.json" "c0" = false ∧
    interpret (llm_check_condition ⟨fun _ => some "content",
          fun a b => a ++ b, fun _ => none⟩)
        (Tree.node ⟨"c0", "Flu"⟩ (["k.json"]) Tree.nil Tree.nil) "p.json"
      = interpret (fun _ _ => false)
        (Tree.node ⟨"c0", "Flu"⟩ (["k.json"]) Tree.nil Tree.nil) "p.json" :=
  claim_C7_amended_thm _ _ _ "p.json" "c0" "content" "maybe."
    (fun _ => rfl) rfl rfl (by constructor <;> decide)

/-- C8: across every sequence of classify, agree-path and disagree-path
operations the node count is non-decreasing and no node is ever deleted:
every node present before the sequence is still present (at the same path,
hence still reachable) afterwards. -/
theorem claim_C8 (check : String → String → Bool) (t : Tree (List String))
    (ops : List Op) :
    size t ≤ size (runOps check t ops) ∧
    ∀ p, isNodeAt t p → isNodeAt (runOps check t ops) p :=
  ⟨runOps_size_le check ops t, fun p hp => runOps_preserves check ops t p hp⟩

/-- C8 witness: a concrete three-operation run (classify, agree with
consent, disagree inserting a node) keeps the root present and does not
shrink the tree. -/
theorem claim_C8_witness :
    size (Tree.node ⟨"c0", "Flu"⟩ (["old.json"]) Tree.nil Tree.nil)
      ≤ size (runOps (fun _ _ => true)
          (Tree.node ⟨"c0", "Flu"⟩ (["old.json"]) Tree.nil Tree.nil)
          [Op.classify "a.json", Op.agree "a.json" true,
            Op.disagree "b.json" "Dengue" ["travel"] ["1", "d"]]) ∧
    isNodeAt (runOps (fun _ _ => true)
        (Tree.node ⟨"c0", "Flu"⟩ (["old.json"]) Tree.nil Tree.nil)
        [Op.classify "a.json", Op.agree "a.json" true,
          Op.disagree "b.json" "Dengue" ["travel"] ["1", "d"]]) [] :=
  ⟨(claim_C8 (fun _ _ => true)
      (Tree.node ⟨"c0", "Flu"⟩ (["old.json"]) Tree.nil Tree.nil)
      [Op.classify "a.json", Op.agree "a.json" true,
        Op.disagree "b.json" "Dengue" ["travel"] ["1", "d"]]).1,
    (claim_C8 (fun _ _ => true)
      (Tree.node ⟨"c0", "Flu"⟩ (["old.json"]) Tree.nil Tree.nil)
      [Op.classify "a.json", Op.agree "a.json" true,
        Op.disagree "b.json" "Dengue" ["travel"] ["1", "d"]]).2 []
      ⟨⟨"c0", "Flu"⟩, ["old.json"], Tree.nil, Tree.nil, rfl⟩⟩

end RDR
